import Mathlib

/-!
# Verification of the resistor-calc core against its specification

Shallow embedding of the `resistor-calc` Rust crate (files `lib.rs`,
`expr_builder.rs`).  Machine floats (`f64`) are modelled as exact rationals
`ℚ`; `u64` casts carry their saturating semantics explicitly.  Strings are
modelled as `List Char`; Rust's `str::split` / `str::contains` pattern
machinery is embedded via an explicit leftmost-match scanner.

The external collaborators (the `meval` expression parser/evaluator, the
`f64` literal parser) are left abstract: an expression is a function from a
variable context to an optional value, and the two text parsers are
parameters of the constraint parser.
-/

namespace RCalcV

/-! ## Rust string-pattern machinery (`str::contains`, `str::split`)

A pattern is a non-empty character list `p :: ps`.  `firstMatch` returns the
index of the leftmost occurrence, scanning left to right, exactly as Rust's
pattern search does. -/

/-- Test whether `pat` is a literal prefix of `s`. -/
def isPrefixL : List Char → List Char → Bool
  | [], _ => true
  | _ :: _, [] => false
  | p :: ps, c :: cs => p == c && isPrefixL ps cs

/-- Index of the leftmost occurrence of the pattern `p :: ps` in `s`. -/
def firstMatch (p : Char) (ps : List Char) : List Char → Option Nat
  | [] => none
  | c :: cs =>
    if isPrefixL (p :: ps) (c :: cs) then some 0
    else (firstMatch p ps cs).map (· + 1)

/-- Rust's `s.contains(pat)` for a non-empty pattern. -/
def containsP (pat : List Char) (s : List Char) : Bool :=
  match pat with
  | [] => true
  | p :: ps => (firstMatch p ps s).isSome

/-- The first two items of Rust's `s.split(pat)` iterator: the segment before
the first occurrence of the pattern, and the segment between the first and
second occurrences (to the end of the string when the pattern occurs only
once).  `none` when the pattern does not occur (the second `next()` of the
split iterator would fail). -/
def splitP (pat : List Char) (s : List Char) : Option (List Char × List Char) :=
  match pat with
  | [] => none
  | p :: ps =>
    match firstMatch p ps s with
    | none => none
    | some i =>
      let rest := s.drop (i + (p :: ps).length)
      let seg2 := match firstMatch p ps rest with
        | none => rest
        | some j => rest.take j
      some (s.take i, seg2)

/-- Rust `str::trim` (restricted to ASCII whitespace, which is all the
constraint grammar uses). -/
def trimL (s : List Char) : List Char :=
  ((s.dropWhile Char.isWhitespace).reverse.dropWhile Char.isWhitespace).reverse

/-! ## Constraint operator detection (`impl FromStr for Bounds`, `split_expr`) -/

/-- The seven operator tokens of the constraint mini-language. -/
inductive Op where
  | le | lt | ge | gt | eq | ne | tilde
  deriving DecidableEq

/-- The character token of each operator. -/
def tokL : Op → List Char
  | .le => ['<', '=']
  | .lt => ['<']
  | .ge => ['>', '=']
  | .gt => ['>']
  | .eq => ['=', '=']
  | .ne => ['!', '=']
  | .tilde => ['~']

/-- Operator detection and side extraction, embedded from
`Bounds::from_str` / `split_expr`: the `contains` chain is tried in the
source's order `<=`, `<`, `>=`, `>`, `==`, `!=`, `~`; the matched branch
splits the text with Rust's `split` and trims both sides.  `none` when no
operator token occurs (the code's `Err` branch; under a successful
`contains` the inner `splitP` always succeeds). -/
def detect (s : List Char) : Option (Op × List Char × List Char) :=
  if containsP (tokL .le) s then
    (splitP (tokL .le) s).map fun q => (Op.le, trimL q.1, trimL q.2)
  else if containsP (tokL .lt) s then
    (splitP (tokL .lt) s).map fun q => (Op.lt, trimL q.1, trimL q.2)
  else if containsP (tokL .ge) s then
    (splitP (tokL .ge) s).map fun q => (Op.ge, trimL q.1, trimL q.2)
  else if containsP (tokL .gt) s then
    (splitP (tokL .gt) s).map fun q => (Op.gt, trimL q.1, trimL q.2)
  else if containsP (tokL .eq) s then
    (splitP (tokL .eq) s).map fun q => (Op.eq, trimL q.1, trimL q.2)
  else if containsP (tokL .ne) s then
    (splitP (tokL .ne) s).map fun q => (Op.ne, trimL q.1, trimL q.2)
  else if containsP (tokL .tilde) s then
    (splitP (tokL .tilde) s).map fun q => (Op.tilde, trimL q.1, trimL q.2)
  else
    none

/-- The text after the first occurrence of the pattern, taken whole (used to
state the claim's reading of "split at the first occurrence"). -/
def afterFirst (pat : List Char) (s : List Char) : Option (List Char) :=
  match pat with
  | [] => none
  | p :: ps =>
    match firstMatch p ps s with
    | none => none
    | some i => some (s.drop (i + (p :: ps).length))

/-- Modelled from the spec's words for claim C1: operator detection that
tries the two-character operators (`<=`, `>=`, `==`, `!=`) before the
one-character operators (`<`, `>`) and the tolerance marker `~` last, and
splits the text at the first occurrence of the matched token into the text
before it and the whole text after it, trimming each side. -/
def detectClaimed (s : List Char) : Option (Op × List Char × List Char) :=
  let split1 : Op → Option (Op × List Char × List Char) := fun op =>
    match firstMatch ((tokL op).headI) ((tokL op).tail) s, afterFirst (tokL op) s with
    | some i, some r => some (op, trimL (s.take i), trimL r)
    | _, _ => none
  if containsP (tokL .le) s then split1 .le
  else if containsP (tokL .ge) s then split1 .ge
  else if containsP (tokL .eq) s then split1 .eq
  else if containsP (tokL .ne) s then split1 .ne
  else if containsP (tokL .lt) s then split1 .lt
  else if containsP (tokL .gt) s then split1 .gt
  else if containsP (tokL .tilde) s then split1 .tilde
  else none

/-! ## Constraints and the compiled scoring function (`expr_builder.rs`)

A meval variable context is a finite map from variable names to values; a
parsed `meval::Expr` is abstracted as a function from a context to an
optional value (`none` = evaluation error, which the code `unwrap`s into a
panic). -/

/-- A meval `Context`: variable name → value. -/
def RCtx : Type := String → Option ℚ

/-- A parsed `meval::Expr`, abstracted by its evaluation behaviour
(`eval_with_context`). -/
def RExpr : Type := RCtx → Option ℚ

/-- The constant `std::f64::EPSILON` = 2⁻⁵², the 64-bit-float machine epsilon. -/
def EPSILON : ℚ := 1 / 2 ^ 52

/-- The `Bounds` enum: a comparison bound (relation, expression, target) or
a tolerance bound (expression, target). -/
inductive Bounds where
  | Cmp (op : ℚ → ℚ → Bool) (expr : RExpr) (target : ℚ)
  | Err (expr : RExpr) (target : ℚ)

/-- The `Bounds` value built by the matched branch of `Bounds::from_str`,
given the detected operator, parsed expression and parsed target: the
closures `|a, b| a <= b`, `|a, b| a < b`, `|a, b| a >= b`, `|a, b| a > b`,
`|a, b| (a - b).abs() < EPSILON`, `|a, b| (a - b).abs() > EPSILON`, and the
`Bounds::Err` variant for `~`. -/
def mkBounds : Op → RExpr → ℚ → Bounds
  | .le, e, t => .Cmp (fun a b => decide (a ≤ b)) e t
  | .lt, e, t => .Cmp (fun a b => decide (a < b)) e t
  | .ge, e, t => .Cmp (fun a b => decide (b ≤ a)) e t
  | .gt, e, t => .Cmp (fun a b => decide (b < a)) e t
  | .eq, e, t => .Cmp (fun a b => decide (|a - b| < EPSILON)) e t
  | .ne, e, t => .Cmp (fun a b => decide (|a - b| > EPSILON)) e t
  | .tilde, e, t => .Err e t

/-- Outcome of `Bounds::from_str` as observed through `ROpBuilder::bound`'s
`unwrap`: a parsed bound, the returned parse error (`Err` branch, no
operator token), or a Rust panic (an `unwrap` inside `split_expr` failed). -/
inductive ParseOutcome where
  | ok (b : Bounds)
  | parseError
  | fatal

/-- The function `Bounds::from_str`, parameterised by the two external side parsing functions:
`ep` models `str::parse::<meval::Expr>` and `np` models
`str::parse::<f64>`.  The operator chain and splitting are `detect`; a side
whose parse fails hits an `unwrap` and panics (`fatal`). -/
def fromStrB (ep : List Char → Option RExpr) (np : List Char → Option ℚ)
    (s : List Char) : ParseOutcome :=
  match detect s with
  | none => .parseError
  | some (op, l, r) =>
    match ep l, np r with
    | some e, some t => .ok (mkBounds op e t)
    | _, _ => .fatal

/-- Whether `s` contains at least one of the seven operator tokens. -/
def hasOpToken (s : List Char) : Bool :=
  containsP (tokL .le) s || containsP (tokL .lt) s || containsP (tokL .ge) s ||
    containsP (tokL .gt) s || containsP (tokL .eq) s ||
    containsP (tokL .ne) s || containsP (tokL .tilde) s

/-- The `RNAMES` table: `["R1", ..., "R100"]`. -/
def RNAMES : List String := (List.range 100).map fun i => "R" ++ toString (i + 1)

/-- The context built by the closure returned from `ROpBuilder::finish`:
slot `i` (0-based) of the candidate is bound to name `RNAMES[i]`. -/
def mkCtx (rs : List ℚ) : RCtx := fun name =>
  (((RNAMES.take rs.length).zip rs).lookup name)

/-- Embedding of `ROpBuilder::cmp_bound_fn` on the reversed bounds list (the code pops
bounds off the end of the vector; the head here is the bound popped first,
i.e. the one whose test runs first).  The outer `Option` layer is the panic
of `expr.eval_with_context(ctx).unwrap()`; the inner `Option ℚ` is the
compiled function's result. -/
def cmpBoundFnRev : List Bounds → RCtx → Option (Option ℚ)
  | [], _ => some (some 0)
  | .Cmp op e t :: rest, ctx =>
    match e ctx with
    | none => none
    | some v => if op v t then cmpBoundFnRev rest ctx else some none
  | .Err e t :: rest, ctx =>
    match e ctx with
    | none => none
    | some v =>
      match cmpBoundFnRev rest ctx with
      | none => none
      | some none => some none
      | some (some acc) => some (some (acc + |t - v|))

/-- Embedding of `ROpBuilder::cmp_bound_fn` on the bounds vector in declaration order. -/
def cmpBoundFn (ops : List Bounds) (ctx : RCtx) : Option (Option ℚ) :=
  cmpBoundFnRev ops.reverse ctx

/-- The function returned by `ROpBuilder::finish`, applied to a candidate:
builds the variable context (indexing `RNAMES[i]` panics when the candidate
has more than 100 slots) and runs the composed bound function.  The outer
`Option` layer is a Rust panic. -/
def finishFn (ops : List Bounds) (rs : List ℚ) : Option (Option ℚ) :=
  if rs.length ≤ 100 then cmpBoundFn ops (mkCtx rs) else none

/-- Expression stored in a bound. -/
def exprOf : Bounds → RExpr
  | .Cmp _ e _ => e
  | .Err e _ => e

/-- Every bound's expression evaluates successfully in `ctx` (the scoring
contract's assumption that the compiled function is total). -/
def evalsOk (ops : List Bounds) (ctx : RCtx) : Prop :=
  ∀ b ∈ ops, exprOf b ctx ≠ none

/-- This comparison bound's relation fails on `ctx` (tolerance bounds and
failed evaluations never fail a comparison). -/
def cmpFailsB (ctx : RCtx) : Bounds → Bool
  | .Cmp op e t =>
    match e ctx with
    | some v => !op v t
    | none => false
  | .Err _ _ => false

/-- Some comparison bound's relation fails on `ctx`. -/
def anyCmpFails (ops : List Bounds) (ctx : RCtx) : Bool :=
  ops.any (cmpFailsB ctx)

/-- The tolerance deviation `|expression_value − target|` contributed by a
bound (`0` for comparison bounds and failed evaluations). -/
def tolContrib (ctx : RCtx) : Bounds → ℚ
  | .Err e t =>
    match e ctx with
    | some v => |v - t|
    | none => 0
  | .Cmp _ _ _ => 0

/-- Sum of all tolerance deviations of a bounds list. -/
def tolSum (ops : List Bounds) (ctx : RCtx) : ℚ :=
  (ops.map (tolContrib ctx)).sum

/-! ## The search engine (`lib.rs`) -/

/-- The mathematical cross product of a list of lists, first factor major
(the first sub-list varies slowest). -/
def cartAux : List (List ℚ) → List (List ℚ)
  | [] => [[]]
  | l :: ls => l.flatMap fun x => (cartAux ls).map fun v => x :: v

/-- Embedding of itertools' `multi_cartesian_product` over a list of
(materialised) iterators, in the adaptor's order: the first sub-iterator
varies slowest.  An empty list of iterators yields an empty product
iterator (the adaptor's actual behaviour: its state machine finishes
immediately on an empty iterator vector — it does not yield a single empty
vector). -/
def multiCartesianProduct : List (List ℚ) → List (List ℚ)
  | [] => []
  | ls@(_ :: _) => cartAux ls

/-- Embedding of `RCalc::combinations`: the product of the per-slot series lengths
(`u128` arithmetic modelled as `ℕ`; the product never approaches `2¹²⁸`). -/
def combinations (rs : List (List ℚ)) : ℕ :=
  (rs.map List.length).prod

/-- Embedding of `f64::round`: nearest integer, ties away from zero. -/
def f64round (q : ℚ) : ℤ :=
  if 0 ≤ q then ⌊q + 1 / 2⌋ else -⌊-q + 1 / 2⌋

/-- Rust's cast `as u64` from a (real-valued) float: saturating. -/
def u64OfF64 (i : ℤ) : ℕ := (min (max i 0) (2 ^ 64 - 1)).toNat

/-- The quantisation step `(err * 1e9).round() as u64` from `RCalc::calc`. -/
def quantize (e : ℚ) : ℕ := u64OfF64 (f64round (e * 10 ^ 9))

/-- An accepted-candidate entry: quantised error paired with the candidate. -/
abbrev Entry : Type := ℕ × List ℚ

/-- The unsorted accepted list of `RCalc::calc`: every enumerated candidate
is passed to `f`; accepted ones are paired with their quantised error. -/
def acceptedList (rs : List (List ℚ)) (f : List ℚ → Option ℚ) : List Entry :=
  (multiCartesianProduct rs).filterMap fun v =>
    (f v).map fun err => (quantize err, v)

/-- Embedding of `res.sort_by_key` on the error key: stable sort ascending by key. -/
def sortByErr (res : List Entry) : List Entry :=
  List.insertionSort (fun a b => a.1 ≤ b.1) res

/-- Embedding of `RCalc::calc`: enumerate, score, quantise, sort; `None` when no
candidate was accepted. -/
def calcFn (rs : List (List ℚ)) (f : List ℚ → Option ℚ) :
    Option (List Entry) :=
  if sortByErr (acceptedList rs f) = [] then none
  else some (sortByErr (acceptedList rs f))

/-- Embedding of `RRes::print_best` as the list of entries it prints: `res[0]` panics on
an empty result list (`none`); otherwise the entries printed are the
leading run whose error equals the first entry's error. -/
def printBest (res : List Entry) : Option (List Entry) :=
  match res with
  | [] => none
  | (e, _) :: _ => some (res.takeWhile fun p => p.1 == e)

/-! ## Series construction (`RSeries::new`, `RSeries::extend`, `POWERS`) -/

/-- The `POWERS` table: the seven decades `1e0 .. 1e6`. -/
def POWERS : List ℚ := [1, 10, 100, 1000, 10000, 100000, 1000000]

/-- Embedding of `RSeries::new`: the base multipliers crossed with `POWERS`,
multiplier-major (Rust `cartesian_product` iterates its first factor
slowest). -/
def RSeriesNew (series : List ℚ) : List ℚ :=
  series.flatMap fun v => POWERS.map fun p => v * p

/-- Embedding of `RSeries::extend`: the base series' values followed by the added
multipliers crossed with `POWERS`. -/
def RSeriesExtend (base : List ℚ) (add : List ℚ) : List ℚ :=
  base ++ add.flatMap fun v => POWERS.map fun p => v * p

/-- The comparison relation stored in a bound, as a test on
(expression value, target); `false` on tolerance bounds. -/
def cmpTest : Bounds → ℚ → ℚ → Bool
  | .Cmp op _ _ => fun a b => op a b
  | .Err _ _ => fun _ _ => false

/-- A stub expression-side parser (accepts exactly the text `a`), used to
exhibit a concrete counterexample to claim C4. -/
def epStub : List Char → Option RExpr := fun l =>
  if l = ['a'] then some (fun _ => some 0) else none

/-- A stub number-side parser that rejects every text, used to exhibit a
concrete counterexample to claim C4. -/
def npStub : List Char → Option ℚ := fun _ => none

/-! ## Supporting lemmas -/

lemma length_cartAux (ls : List (List ℚ)) :
    (cartAux ls).length = (ls.map List.length).prod := by
  induction ls with
  | nil => rfl
  | cons l ls ih =>
    simp [cartAux, List.length_flatMap, Function.comp_def,
      ih, mul_comm]

/-! ## C2: enumerated candidate count versus `combinations()` -/

/-- C2, counterexample.  The claim states that the number of candidates
enumerated always equals `combinations()`, and that with zero slots exactly
one empty candidate is evaluated.  With zero slots configured,
`combinations()` is the empty product `1`, but `multi_cartesian_product`
over an empty iterator list yields no elements at all, so zero candidates
are enumerated. -/
theorem c2_counterexample :
    (multiCartesianProduct []).length ≠ combinations [] := by decide

/-- C2, amended.  For every search configuration with at least one slot,
the number of candidates enumerated and passed to the scoring function
before filtering equals `combinations()`, which is the exact product of the
per-slot series lengths; with zero slots configured, `combinations()` is the
empty product `1` but the enumeration yields no candidates, so no Candidate
is evaluated. -/
theorem c2_enumeration_count (rs : List (List ℚ)) (h : rs ≠ []) :
    (multiCartesianProduct rs).length = combinations rs ∧
    (multiCartesianProduct ([] : List (List ℚ))).length = 0 := by
  refine ⟨?_, rfl⟩
  match rs, h with
  | l :: ls, _ => exact length_cartAux (l :: ls)

/-- C2, witness. -/
theorem c2_enumeration_count_witness :
    (multiCartesianProduct [[1], [2, 3]]).length = combinations [[1], [2, 3]] ∧
    (multiCartesianProduct ([] : List (List ℚ))).length = 0 :=
  c2_enumeration_count [[1], [2, 3]] (by decide)

/-! ## C7: series construction layout -/

lemma getD_RSeriesNew :
    ∀ (ms : List ℚ) (i j : ℕ), i < ms.length → j < 7 →
      (RSeriesNew ms).getD (i * 7 + j) 0 = ms.getD i 0 * POWERS.getD j 0 := by
  intro ms
  induction ms with
  | nil => intro i j hi _; exact absurd hi (by simp)
  | cons m ms ih =>
    intro i j hi hj
    cases i with
    | zero =>
      interval_cases j <;> simp [RSeriesNew, POWERS]
    | succ i =>
      have h7 : (POWERS.map fun p => m * p).length = 7 := by simp [POWERS]
      have harith : (i + 1) * 7 + j = 7 + (i * 7 + j) := by ring
      rw [show RSeriesNew (m :: ms) =
            (POWERS.map fun p => m * p) ++ RSeriesNew ms from rfl,
        harith, List.getD_append_right _ _ _ _ (by omega)]
      rw [h7]
      simpa using ih i j (by simpa using hi) hj

/-- C7.  A Series built from `k` base multipliers has exactly `k * 7`
values (one per decade `1e0 .. 1e6`), laid out multiplier-major,
decade-minor: the entry at offset `i * 7 + j` is the `i`-th multiplier times
the `j`-th decade.  Extending a base series preserves the base's values in
order as a prefix and appends the new multipliers' decade expansions. -/
theorem c7_series_layout (ms add base : List ℚ) (i j : ℕ)
    (hi : i < ms.length) (hj : j < 7) :
    (RSeriesNew ms).length = ms.length * 7 ∧
    (RSeriesNew ms).getD (i * 7 + j) 0 = ms.getD i 0 * POWERS.getD j 0 ∧
    RSeriesExtend base add = base ++ RSeriesNew add ∧
    POWERS = (List.range 7).map fun k => (10 : ℚ) ^ k := by
  refine ⟨?_, getD_RSeriesNew ms i j hi hj, rfl, ?_⟩
  · simp [RSeriesNew, List.length_flatMap, Function.comp_def, POWERS, mul_comm]
  · simp [POWERS, List.range_succ]
    norm_num

/-- C7, witness. -/
theorem c7_series_layout_witness :
    (RSeriesNew [1, 2]).length = 2 * 7 ∧
    (RSeriesNew [1, 2]).getD (1 * 7 + 2) 0 =
      ([(1 : ℚ), 2].getD 1 0) * POWERS.getD 2 0 ∧
    RSeriesExtend [1] [2] = [1] ++ RSeriesNew [2] ∧
    POWERS = (List.range 7).map fun k => (10 : ℚ) ^ k := by
  have h := c7_series_layout [1, 2] [2] [1] 1 2 (by decide) (by decide)
  simpa using h

/-! ## C3 / C9: semantics of the compiled scoring function -/

lemma cmpBoundFnRev_char (ops : List Bounds) (ctx : RCtx)
    (h : ∀ b ∈ ops, exprOf b ctx ≠ none) :
    cmpBoundFnRev ops ctx =
      if ops.any (cmpFailsB ctx) then some none
      else some (some ((ops.map (tolContrib ctx)).sum)) := by
  induction ops with
  | nil => simp [cmpBoundFnRev]
  | cons b rest ih =>
    have hb : exprOf b ctx ≠ none := h b (List.mem_cons_self b rest)
    have hrest : ∀ b ∈ rest, exprOf b ctx ≠ none := fun b hbm =>
      h b (List.mem_cons_of_mem _ hbm)
    have ihr := ih hrest
    cases b with
    | Cmp op e t =>
      obtain ⟨v, hv⟩ := Option.ne_none_iff_exists'.mp hb
      rw [exprOf] at hv
      by_cases hop : op v t
      · have : cmpFailsB ctx (.Cmp op e t) = false := by
          simp [cmpFailsB, hv, hop]
        simp [cmpBoundFnRev, hv, hop, ihr, this, tolContrib]
      · have : cmpFailsB ctx (.Cmp op e t) = true := by
          simp [cmpFailsB, hv]
          exact Bool.not_eq_true _ ▸ (by simpa using hop)
        simp [cmpBoundFnRev, hv, hop, this]
    | Err e t =>
      obtain ⟨v, hv⟩ := Option.ne_none_iff_exists'.mp hb
      rw [exprOf] at hv
      have hfail : cmpFailsB ctx (.Err e t) = false := rfl
      by_cases hany : rest.any (cmpFailsB ctx)
      · simp [cmpBoundFnRev, hv, ihr, hany, hfail]
      · simp only [Bool.not_eq_true] at hany
        simp [cmpBoundFnRev, hv, ihr, hany, hfail, tolContrib]
        rw [abs_sub_comm]
        ring

lemma cmpBoundFn_char (ops : List Bounds) (ctx : RCtx)
    (h : evalsOk ops ctx) :
    cmpBoundFn ops ctx =
      if anyCmpFails ops ctx then some none
      else some (some (tolSum ops ctx)) := by
  have h' : ∀ b ∈ ops.reverse, exprOf b ctx ≠ none := fun b hb =>
    h b (List.mem_reverse.mp hb)
  rw [cmpBoundFn, cmpBoundFnRev_char ops.reverse ctx h', anyCmpFails, tolSum]
  rw [List.any_reverse, List.map_reverse, List.sum_reverse]

lemma tolSum_nonneg (ops : List Bounds) (ctx : RCtx) : 0 ≤ tolSum ops ctx := by
  apply List.sum_nonneg
  intro x hx
  obtain ⟨b, _, rfl⟩ := List.mem_map.mp hx
  cases b with
  | Cmp op e t => simp [tolContrib]
  | Err e t =>
    rw [tolContrib]
    cases e ctx with
    | none => simp
    | some v => simp [abs_nonneg]

/-- C3.  For every constraint list, the compiled scoring function
applied to a candidate (within the contract: at most 100 slots, every
expression evaluates) returns `None` exactly when some Comparison
constraint's relation fails on the candidate, and otherwise returns
`Some e` where `e` is the sum over all Tolerance constraints of
`|expression_value − target|` (`0` when there are no Tolerance constraints),
with `e ≥ 0`. -/
theorem c3_scoring_contract (ops : List Bounds) (rs : List ℚ)
    (h100 : rs.length ≤ 100) (hev : evalsOk ops (mkCtx rs)) :
    (finishFn ops rs = some none ↔ anyCmpFails ops (mkCtx rs) = true) ∧
    (anyCmpFails ops (mkCtx rs) = false →
      finishFn ops rs = some (some (tolSum ops (mkCtx rs)))) ∧
    0 ≤ tolSum ops (mkCtx rs) := by
  have hchar := cmpBoundFn_char ops (mkCtx rs) hev
  rw [finishFn, if_pos h100]
  refine ⟨?_, ?_, tolSum_nonneg ops (mkCtx rs)⟩
  · constructor
    · intro hres
      by_contra hfail
      simp only [Bool.not_eq_true] at hfail
      rw [hchar, if_neg (by simp [hfail])] at hres
      simp at hres
    · intro hfail
      rw [hchar, if_pos (by simp [hfail])]
  · intro hfail
    rw [hchar, if_neg (by simp [hfail])]

/-- C3, witness (one tolerance bound, empty candidate). -/
theorem c3_scoring_contract_witness :
    (finishFn [Bounds.Err (fun _ => some 3) 5] [] = some none ↔
      anyCmpFails [Bounds.Err (fun _ => some 3) 5] (mkCtx []) = true) ∧
    (anyCmpFails [Bounds.Err (fun _ => some 3) 5] (mkCtx []) = false →
      finishFn [Bounds.Err (fun _ => some 3) 5] [] =
        some (some (tolSum [Bounds.Err (fun _ => some 3) 5] (mkCtx [])))) ∧
    0 ≤ tolSum [Bounds.Err (fun _ => some 3) 5] (mkCtx []) :=
  c3_scoring_contract [Bounds.Err (fun _ => some 3) 5] [] (by decide)
    (fun b hb => by
      rw [List.mem_singleton.mp hb]
      simp [exprOf])

/-- C9.  Permuting the declaration order of the constraints changes
neither the compiled scoring function's accept/reject outcome nor its total
error value (within the contract that every expression evaluates): the
result is identical, and an accepted candidate's error is the sum of the
individual Tolerance deviations, independent of declaration order. -/
theorem c9_order_invariance (ops₁ ops₂ : List Bounds) (ctx : RCtx)
    (hp : ops₁.Perm ops₂) (hev : evalsOk ops₁ ctx) :
    cmpBoundFn ops₁ ctx = cmpBoundFn ops₂ ctx ∧
    (anyCmpFails ops₁ ctx = false →
      cmpBoundFn ops₁ ctx = some (some (tolSum ops₁ ctx)) ∧
      tolSum ops₁ ctx = tolSum ops₂ ctx) := by
  have hev₂ : evalsOk ops₂ ctx := fun b hb => hev b (hp.mem_iff.mpr hb)
  have hsum : tolSum ops₁ ctx = tolSum ops₂ ctx :=
    (hp.map (tolContrib ctx)).sum_eq
  have hany : anyCmpFails ops₁ ctx = anyCmpFails ops₂ ctx := by
    rw [anyCmpFails, anyCmpFails]
    cases h₂ : ops₂.any (cmpFailsB ctx) with
    | true =>
      obtain ⟨b, hb, hfb⟩ := List.any_eq_true.mp h₂
      exact List.any_eq_true.mpr ⟨b, hp.mem_iff.mpr hb, hfb⟩
    | false =>
      rw [List.any_eq_false]
      intro b hb
      exact (List.any_eq_false.mp h₂) b (hp.mem_iff.mp hb)
  constructor
  · rw [cmpBoundFn_char ops₁ ctx hev, cmpBoundFn_char ops₂ ctx hev₂,
      hany, hsum]
  · intro hfail
    refine ⟨?_, hsum⟩
    rw [cmpBoundFn_char ops₁ ctx hev, if_neg (by simp [hfail])]

/-- C9, witness (swapping a comparison bound and a tolerance bound). -/
theorem c9_order_invariance_witness :
    cmpBoundFn [Bounds.Cmp (fun a b => decide (a ≤ b)) (fun _ => some 1) 2,
        Bounds.Err (fun _ => some 3) 5] (mkCtx []) =
      cmpBoundFn [Bounds.Err (fun _ => some 3) 5,
        Bounds.Cmp (fun a b => decide (a ≤ b)) (fun _ => some 1) 2]
        (mkCtx []) :=
  (c9_order_invariance _ _ (mkCtx []) (List.Perm.swap _ _ [])
    (fun b hb => by
      rcases List.mem_cons.mp hb with h | h
      · rw [h]; simp [exprOf]
      · rw [List.mem_singleton.mp h]; simp [exprOf])).1

/-! ## C5 / C6 / C10: search results, quantisation, sorting, best matches -/

lemma sortByErr_perm (l : List Entry) : (sortByErr l).Perm l :=
  List.perm_insertionSort _ l

lemma sortByErr_sorted (l : List Entry) :
    (sortByErr l).Pairwise fun a b => a.1 ≤ b.1 := by
  haveI : IsTotal Entry fun a b => a.1 ≤ b.1 := ⟨fun a b => Nat.le_total a.1 b.1⟩
  haveI : IsTrans Entry fun a b => a.1 ≤ b.1 :=
    ⟨fun _ _ _ h₁ h₂ => le_trans h₁ h₂⟩
  exact List.sorted_insertionSort _ l

lemma sortByErr_eq_nil_iff (l : List Entry) : sortByErr l = [] ↔ l = [] := by
  constructor
  · intro h
    have hp := sortByErr_perm l
    rw [h] at hp
    exact hp.symm.eq_nil
  · intro h
    rw [h]
    rfl

lemma calcFn_some_inv (rs : List (List ℚ)) (f : List ℚ → Option ℚ)
    (l : List Entry) (hl : calcFn rs f = some l) :
    l = sortByErr (acceptedList rs f) ∧ l ≠ [] := by
  rw [calcFn] at hl
  by_cases h : sortByErr (acceptedList rs f) = []
  · rw [if_pos h] at hl
    exact absurd hl (by simp)
  · rw [if_neg h] at hl
    exact ⟨(Option.some.inj hl).symm, by
      intro hnil
      exact h ((Option.some.inj hl) ▸ hnil)⟩

lemma mem_acceptedList (rs : List (List ℚ)) (f : List ℚ → Option ℚ)
    (p : Entry) :
    p ∈ acceptedList rs f ↔
      ∃ v ∈ multiCartesianProduct rs, ∃ e, f v = some e ∧
        p = (quantize e, v) := by
  rw [acceptedList]
  simp only [List.mem_filterMap, Option.map_eq_some']
  constructor
  · rintro ⟨v, hv, e, he, rfl⟩
    exact ⟨v, hv, e, he, rfl⟩
  · rintro ⟨v, hv, e, he, rfl⟩
    exact ⟨v, hv, e, he, rfl⟩

/-- C5.  The search returns `None` exactly when zero candidates are
accepted by the scoring function, and otherwise `Some` result containing
exactly the accepted candidates; a present result is never empty. -/
theorem c5_none_iff_no_accepted (rs : List (List ℚ))
    (f : List ℚ → Option ℚ) :
    (calcFn rs f = none ↔ ∀ v ∈ multiCartesianProduct rs, f v = none) ∧
    ∀ l, calcFn rs f = some l → l ≠ [] ∧ l.Perm (acceptedList rs f) := by
  constructor
  · by_cases h : sortByErr (acceptedList rs f) = []
    · rw [calcFn, if_pos h]
      refine iff_of_true rfl ?_
      intro v hv
      rw [sortByErr_eq_nil_iff] at h
      rw [acceptedList, List.filterMap_eq_nil_iff] at h
      have := h v hv
      rwa [Option.map_eq_none'] at this
    · rw [calcFn, if_neg h]
      refine iff_of_false (by simp) ?_
      push_neg
      rw [sortByErr_eq_nil_iff] at h
      obtain ⟨p, hp⟩ := List.exists_mem_of_ne_nil _ h
      obtain ⟨v, hv, e, he, rfl⟩ := (mem_acceptedList rs f p).mp hp
      exact ⟨v, hv, by simp [he]⟩
  · intro l hl
    obtain ⟨rfl, hne⟩ := calcFn_some_inv rs f l hl
    exact ⟨hne, sortByErr_perm _⟩

/-- C5, witness. -/
theorem c5_none_iff_no_accepted_witness :
    ([(quantize 0, [1])] : List Entry) ≠ [] ∧
    ([(quantize 0, [1])] : List Entry).Perm
      (acceptedList [[1]] fun _ => some 0) :=
  (c5_none_iff_no_accepted [[1]] fun _ => some 0).2 [(quantize 0, [1])] rfl

lemma quantize_cast_eq_round (e : ℚ) (h0 : 0 ≤ e)
    (hb : e * 10 ^ 9 < 2 ^ 63) :
    (quantize e : ℤ) = round (e * 10 ^ 9) := by
  have hq0 : (0 : ℚ) ≤ e * 10 ^ 9 := mul_nonneg h0 (by positivity)
  rw [quantize, f64round, if_pos hq0, u64OfF64]
  have h1 : (0 : ℤ) ≤ ⌊e * 10 ^ 9 + 1 / 2⌋ := Int.floor_nonneg.mpr (by linarith)
  have h2 : ⌊e * 10 ^ 9 + 1 / 2⌋ ≤ 2 ^ 64 - 1 := by
    have hlt : ⌊e * 10 ^ 9 + 1 / 2⌋ < (2 : ℤ) ^ 64 := by
      rw [Int.floor_lt]
      push_cast
      have : (2 : ℚ) ^ 63 + 1 / 2 < 2 ^ 64 := by norm_num
      linarith
    omega
  rw [max_eq_left h1, min_eq_left h2, Int.toNat_of_nonneg h1, round_eq]

/-- C6.  Within the scoring contract (accepted errors are non-negative
and small enough that parts-per-billion quantisation fits a `u64`), every
entry of a returned result carries the quantised error `round(e * 1e9)` of
its candidate's real error `e` as a non-negative integer, and iteration
over the result yields entries with non-decreasing quantised error. -/
theorem c6_quantized_and_sorted (rs : List (List ℚ))
    (f : List ℚ → Option ℚ) (l : List Entry)
    (hf : ∀ v e, f v = some e → 0 ≤ e ∧ e * 10 ^ 9 < 2 ^ 63)
    (hl : calcFn rs f = some l) :
    (∀ p ∈ l, ∃ e, f p.2 = some e ∧ (p.1 : ℤ) = round (e * 10 ^ 9)) ∧
    l.Pairwise fun a b => a.1 ≤ b.1 := by
  obtain ⟨rfl, -⟩ := calcFn_some_inv rs f l hl
  refine ⟨?_, sortByErr_sorted _⟩
  intro p hp
  have hp' : p ∈ acceptedList rs f := (sortByErr_perm _).mem_iff.mp hp
  obtain ⟨v, _, e, he, rfl⟩ := (mem_acceptedList rs f p).mp hp'
  obtain ⟨h0, hbnd⟩ := hf v e he
  exact ⟨e, he, quantize_cast_eq_round e h0 hbnd⟩

/-- C6, witness. -/
theorem c6_quantized_and_sorted_witness :
    (∀ p ∈ ([(quantize 0, [1])] : List Entry),
      ∃ e, (fun (_ : List ℚ) => some (0 : ℚ)) p.2 = some e ∧
        (p.1 : ℤ) = round (e * 10 ^ 9)) ∧
    ([(quantize 0, [1])] : List Entry).Pairwise (fun a b => a.1 ≤ b.1) :=
  c6_quantized_and_sorted [[1]] (fun _ => some 0) [(quantize 0, [1])]
    (fun v e h => by
      obtain rfl : (0 : ℚ) = e := Option.some.inj h
      exact ⟨le_refl 0, by rw [zero_mul]; exact pow_pos two_pos 63⟩)
    rfl

lemma mem_takeWhile_of_sorted :
    ∀ (l : List Entry) (m : ℕ),
      l.Pairwise (fun a b => a.1 ≤ b.1) → (∀ q ∈ l, m ≤ q.1) →
      ∀ p ∈ l, p.1 = m → p ∈ l.takeWhile fun q => q.1 == m := by
  intro l
  induction l with
  | nil => intro m _ _ p hp; exact absurd hp (by simp)
  | cons x t ih =>
    intro m hs hmin p hp hpm
    have hxm : x.1 = m := by
      rcases List.mem_cons.mp hp with rfl | hpt
      · exact hpm
      · have h1 : m ≤ x.1 := hmin x (List.mem_cons_self x t)
        have h2 : x.1 ≤ p.1 := (List.pairwise_cons.mp hs).1 p hpt
        omega
    rw [List.takeWhile_cons, if_pos (by simp [hxm])]
    rcases List.mem_cons.mp hp with rfl | hpt
    · exact List.mem_cons_self _ _
    · refine List.mem_cons_of_mem _ ?_
      refine ih m (List.pairwise_cons.mp hs).2 ?_ p hpt hpm
      intro q hq
      exact hmin q (List.mem_cons_of_mem _ hq)

/-- C10.  Every result returned by a search is non-empty, so
`print_best` never fails: it reads the first entry's quantised error, which
is the minimum over the whole result, and prints exactly the contiguous
prefix of entries whose quantised error equals that minimum. -/
theorem c10_print_best (rs : List (List ℚ)) (f : List ℚ → Option ℚ)
    (l : List Entry) (hl : calcFn rs f = some l) :
    ∃ pb, printBest l = some pb ∧ pb ≠ [] ∧ pb <+: l ∧
      ∃ m, (∀ p ∈ l, m ≤ p.1) ∧ (∀ p ∈ pb, p.1 = m) ∧
        ∀ p ∈ l, p.1 = m → p ∈ pb := by
  obtain ⟨hleq, hne⟩ := calcFn_some_inv rs f l hl
  have hsorted : l.Pairwise fun a b => a.1 ≤ b.1 := hleq ▸ sortByErr_sorted _
  obtain ⟨⟨e₀, v₀⟩, t, rfl⟩ : ∃ x t, l = x :: t := by
    cases l with
    | nil => exact absurd rfl hne
    | cons a b => exact ⟨a, b, rfl⟩
  · refine ⟨((e₀, v₀) :: t).takeWhile fun p => p.1 == e₀, rfl, ?_, ?_, e₀,
      ?_, ?_, ?_⟩
    · rw [List.takeWhile_cons, if_pos (by simp)]
      simp
    · exact List.takeWhile_prefix _
    · intro p hp
      rcases List.mem_cons.mp hp with rfl | hpt
      · exact le_refl _
      · exact (List.pairwise_cons.mp hsorted).1 p hpt
    · intro p hp
      have := List.mem_takeWhile_imp hp
      simpa using this
    · refine mem_takeWhile_of_sorted _ e₀ hsorted ?_
      intro q hq
      rcases List.mem_cons.mp hq with rfl | hqt
      · exact le_refl _
      · exact (List.pairwise_cons.mp hsorted).1 q hqt

/-- C10, witness. -/
theorem c10_print_best_witness :
    ∃ pb, printBest ([(quantize 0, [1])] : List Entry) = some pb ∧
      pb ≠ [] ∧ pb <+: ([(quantize 0, [1])] : List Entry) ∧
      ∃ m, (∀ p ∈ ([(quantize 0, [1])] : List Entry), m ≤ p.1) ∧
        (∀ p ∈ pb, p.1 = m) ∧
        ∀ p ∈ ([(quantize 0, [1])] : List Entry), p.1 = m → p ∈ pb :=
  c10_print_best [[1]] (fun _ => some 0) [(quantize 0, [1])] rfl

/-! ## C8: epsilon-threshold equality and inequality -/

/-- C8.  An `==` comparison accepts exactly when the absolute difference
between expression value and target is strictly below the 64-bit-float
machine epsilon `2⁻⁵²`, and `!=` accepts exactly when it is strictly above;
the threshold is the fixed absolute constant `EPSILON`, so a difference of
`1e-20` passes `==` while a difference of `1e-10` fails it. -/
theorem c8_epsilon_threshold (x y t : ℚ) (e : RExpr) :
    (cmpTest (mkBounds .eq e t) x y = true ↔ |x - y| < EPSILON) ∧
    (cmpTest (mkBounds .ne e t) x y = true ↔ |x - y| > EPSILON) ∧
    EPSILON = 1 / 2 ^ 52 ∧
    (∀ e' : RExpr, ∀ t' : ℚ,
      cmpTest (mkBounds .eq e' t') (1 / 10 ^ 20) 0 = true) ∧
    (∀ e' : RExpr, ∀ t' : ℚ,
      cmpTest (mkBounds .eq e' t') (1 / 10 ^ 10) 0 = false) := by
  refine ⟨by simp [cmpTest, mkBounds], by simp [cmpTest, mkBounds], rfl,
    ?_, ?_⟩
  · intro e' t'
    have h20 : |(1 : ℚ) / 10 ^ 20| = 1 / 10 ^ 20 := abs_of_pos (by norm_num)
    simp only [cmpTest, mkBounds, decide_eq_true_eq, EPSILON, sub_zero, h20]
    norm_num
  · intro e' t'
    have h10 : |(1 : ℚ) / 10 ^ 10| = 1 / 10 ^ 10 := abs_of_pos (by norm_num)
    simp only [cmpTest, mkBounds, decide_eq_false_iff_not, EPSILON, not_lt,
      sub_zero, h10]
    norm_num

/-! ## String lemmas for C1 / C4 -/

lemma isPrefixL_append_drop :
    ∀ (pat l : List Char), isPrefixL pat l = true → l = pat ++ l.drop pat.length := by
  intro pat
  induction pat with
  | nil => intro l _; simp
  | cons p ps ih =>
    intro l h
    cases l with
    | nil => exact absurd h (by simp [isPrefixL])
    | cons c cs =>
      rw [isPrefixL, Bool.and_eq_true, beq_iff_eq] at h
      obtain ⟨rfl, h2⟩ := h
      simpa using ih cs h2

lemma isPrefixL_append_ext :
    ∀ (pat l t : List Char), isPrefixL pat l = true →
      isPrefixL pat (l ++ t) = true := by
  intro pat
  induction pat with
  | nil => intro l t _; simp [isPrefixL]
  | cons p ps ih =>
    intro l t h
    cases l with
    | nil => exact absurd h (by simp [isPrefixL])
    | cons c cs =>
      rw [isPrefixL, Bool.and_eq_true, beq_iff_eq] at h
      obtain ⟨rfl, h2⟩ := h
      rw [List.cons_append, isPrefixL, Bool.and_eq_true, beq_iff_eq]
      exact ⟨rfl, ih cs t h2⟩

lemma fm_isPrefix (p : Char) (ps : List Char) :
    ∀ (s : List Char) (i : ℕ), firstMatch p ps s = some i →
      isPrefixL (p :: ps) (s.drop i) = true := by
  intro s
  induction s with
  | nil => intro i h; exact absurd h (by simp [firstMatch])
  | cons c cs ih =>
    intro i h
    rw [firstMatch] at h
    by_cases hp : isPrefixL (p :: ps) (c :: cs) = true
    · rw [if_pos hp] at h
      obtain rfl : (0 : ℕ) = i := Option.some.inj h
      simpa using hp
    · rw [if_neg hp] at h
      obtain ⟨j, hj, rfl⟩ := Option.map_eq_some'.mp h
      simpa using ih j hj

lemma fm_take_none (p : Char) (ps : List Char) :
    ∀ (s : List Char) (i : ℕ), firstMatch p ps s = some i →
      firstMatch p ps (s.take i) = none := by
  intro s
  induction s with
  | nil => intro i h; exact absurd h (by simp [firstMatch])
  | cons c cs ih =>
    intro i h
    rw [firstMatch] at h
    by_cases hp : isPrefixL (p :: ps) (c :: cs) = true
    · rw [if_pos hp] at h
      obtain rfl : (0 : ℕ) = i := Option.some.inj h
      simp [firstMatch]
    · rw [if_neg hp] at h
      obtain ⟨j, hj, rfl⟩ := Option.map_eq_some'.mp h
      rw [List.take_succ_cons, firstMatch]
      have hnp : isPrefixL (p :: ps) (c :: cs.take j) ≠ true := by
        intro hcontra
        have hext := isPrefixL_append_ext (p :: ps) (c :: cs.take j)
          (cs.drop j) hcontra
        rw [List.cons_append, List.take_append_drop] at hext
        exact hp hext
      rw [if_neg hnp, ih j hj]
      rfl

lemma containsP_splitP (pat s : List Char) (hne : pat ≠ [])
    (h : containsP pat s = true) : ∃ q, splitP pat s = some q := by
  match pat, hne with
  | p :: ps, _ =>
    rw [containsP] at h
    obtain ⟨i, hi⟩ := Option.isSome_iff_exists.mp h
    rw [splitP, hi]
    exact ⟨_, rfl⟩

lemma splitP_decomp (pat s x y : List Char)
    (h : splitP pat s = some (x, y)) :
    ∃ rest, s = x ++ pat ++ y ++ rest ∧ containsP pat x = false ∧
      containsP pat y = false ∧ (rest = [] ∨ ∃ r2, rest = pat ++ r2) := by
  match pat with
  | [] => exact absurd h (by simp [splitP])
  | p :: ps =>
    rw [splitP] at h
    cases hi : firstMatch p ps s with
    | none => rw [hi] at h; exact absurd h (by simp)
    | some i =>
      rw [hi] at h
      have hxat : x = s.take i ∧
          y = (match firstMatch p ps (s.drop (i + (p :: ps).length)) with
            | none => s.drop (i + (p :: ps).length)
            | some j => (s.drop (i + (p :: ps).length)).take j) := by
        have := Option.some.inj h
        exact ⟨congrArg Prod.fst this.symm, congrArg Prod.snd this.symm⟩
      obtain ⟨rfl, hy⟩ := hxat
      have hdropi : s.drop i = (p :: ps) ++ s.drop (i + (p :: ps).length) := by
        have h1 := isPrefixL_append_drop (p :: ps) (s.drop i)
          (fm_isPrefix p ps s i hi)
        rw [List.drop_drop] at h1
        rw [h1]
      have hs : s = s.take i ++ (p :: ps) ++ s.drop (i + (p :: ps).length) := by
        conv_lhs => rw [← List.take_append_drop i s]
        rw [hdropi, List.append_assoc]
      have hcx : containsP (p :: ps) (s.take i) = false := by
        rw [containsP, fm_take_none p ps s i hi]
        rfl
      set REST := s.drop (i + (p :: ps).length) with hREST
      cases hj : firstMatch p ps REST with
      | none =>
        have hyr : y = REST := by rw [hy, hj]
        refine ⟨[], ?_, hcx, ?_, Or.inl rfl⟩
        · rw [hyr]
          simpa using hs
        · rw [hyr, containsP, hj]
          rfl
      | some j =>
        have hyr : y = REST.take j := by rw [hy, hj]
        have hdropj : REST.drop j =
            (p :: ps) ++ (REST.drop j).drop (p :: ps).length :=
          isPrefixL_append_drop (p :: ps) (REST.drop j)
            (fm_isPrefix p ps REST j hj)
        have hRESTeq : REST = REST.take j ++
            ((p :: ps) ++ (REST.drop j).drop (p :: ps).length) := by
          conv_lhs =>
            rw [← List.take_append_drop j REST]
            rw [hdropj]
        refine ⟨(p :: ps) ++ (REST.drop j).drop (p :: ps).length, ?_, hcx,
          ?_, Or.inr ⟨_, rfl⟩⟩
        · rw [hyr]
          conv_lhs => rw [hs]
          conv_lhs => rw [hRESTeq]
          simp [List.append_assoc]
        · rw [hyr, containsP, fm_take_none p ps REST j hj]
          rfl

lemma detect_eq_none_iff (s : List Char) :
    detect s = none ↔ hasOpToken s = false := by
  rw [detect, hasOpToken]
  split_ifs with h1 h2 h3 h4 h5 h6 h7
  · obtain ⟨q, hq⟩ := containsP_splitP _ s (by simp [tokL]) h1
    simp [hq, h1]
  · obtain ⟨q, hq⟩ := containsP_splitP _ s (by simp [tokL]) h2
    simp [hq, h2]
  · obtain ⟨q, hq⟩ := containsP_splitP _ s (by simp [tokL]) h3
    simp [hq, h3]
  · obtain ⟨q, hq⟩ := containsP_splitP _ s (by simp [tokL]) h4
    simp [hq, h4]
  · obtain ⟨q, hq⟩ := containsP_splitP _ s (by simp [tokL]) h5
    simp [hq, h5]
  · obtain ⟨q, hq⟩ := containsP_splitP _ s (by simp [tokL]) h6
    simp [hq, h6]
  · obtain ⟨q, hq⟩ := containsP_splitP _ s (by simp [tokL]) h7
    simp [hq, h7]
  · simp only [Bool.not_eq_true] at h1 h2 h3 h4 h5 h6 h7
    simp [h1, h2, h3, h4, h5, h6, h7]

lemma detect_branch_decomp (s : List Char) (op : Op) (l r : List Char)
    (hdet : detect s = some (op, l, r)) :
    ∃ a b rest, s = a ++ tokL op ++ b ++ rest ∧
      containsP (tokL op) a = false ∧ containsP (tokL op) b = false ∧
      (rest = [] ∨ ∃ r2, rest = tokL op ++ r2) ∧
      l = trimL a ∧ r = trimL b := by
  rw [detect] at hdet
  split_ifs at hdet
  all_goals
    obtain ⟨⟨a, b⟩, hsp, heq⟩ := Option.map_eq_some'.mp hdet
  all_goals
    injection heq with hop hlr
    injection hlr with hl hr
    subst hop
    subst hl
    subst hr
    obtain ⟨rest, h1, h2, h3, h4⟩ := splitP_decomp _ s a b hsp
    exact ⟨a, b, rest, h1, h2, h3, h4, rfl, rfl⟩

/-! ## C1: operator detection order and side splitting -/

/-- C1, counterexample.  The claim's detection order (all two-character
operators before the one-character ones) and its splitting rule (target
side = everything after the first occurrence) both disagree with the code:
on `"R1<2>=3"` the code matches `<` (not `>=`), and on `"1<2<3"` the code's
target side is the segment `"2"` between the two occurrences, not
`"2<3"`. -/
theorem c1_counterexample :
    detect ['R', '1', '<', '2', '>', '=', '3'] ≠
      detectClaimed ['R', '1', '<', '2', '>', '=', '3'] ∧
    detect ['1', '<', '2', '<', '3'] ≠
      detectClaimed ['1', '<', '2', '<', '3'] :=
  ⟨by decide, by decide⟩

/-- C1, amended.  Operator detection tries the tokens in the fixed
order `<=`, `<`, `>=`, `>`, `==`, `!=`, `~` (each two-character operator
before its own one-character prefix, the tolerance marker last, but `>=`,
`==`, `!=` after `<`), and fails exactly when none occurs.  The expression
side is the text before the first occurrence of the matched token and the
target side is the text strictly between the first and second occurrences
(to the end when the token occurs once); each side is trimmed of
surrounding whitespace. -/
theorem c1_operator_order_and_split (s : List Char) :
    (containsP (tokL .le) s = true →
      ∃ l r, detect s = some (.le, l, r)) ∧
    (containsP (tokL .le) s = false → containsP (tokL .lt) s = true →
      ∃ l r, detect s = some (.lt, l, r)) ∧
    (containsP (tokL .le) s = false → containsP (tokL .lt) s = false →
      containsP (tokL .ge) s = true →
      ∃ l r, detect s = some (.ge, l, r)) ∧
    (containsP (tokL .le) s = false → containsP (tokL .lt) s = false →
      containsP (tokL .ge) s = false → containsP (tokL .gt) s = true →
      ∃ l r, detect s = some (.gt, l, r)) ∧
    (containsP (tokL .le) s = false → containsP (tokL .lt) s = false →
      containsP (tokL .ge) s = false → containsP (tokL .gt) s = false →
      containsP (tokL .eq) s = true →
      ∃ l r, detect s = some (.eq, l, r)) ∧
    (containsP (tokL .le) s = false → containsP (tokL .lt) s = false →
      containsP (tokL .ge) s = false → containsP (tokL .gt) s = false →
      containsP (tokL .eq) s = false → containsP (tokL .ne) s = true →
      ∃ l r, detect s = some (.ne, l, r)) ∧
    (containsP (tokL .le) s = false → containsP (tokL .lt) s = false →
      containsP (tokL .ge) s = false → containsP (tokL .gt) s = false →
      containsP (tokL .eq) s = false → containsP (tokL .ne) s = false →
      containsP (tokL .tilde) s = true →
      ∃ l r, detect s = some (.tilde, l, r)) ∧
    (containsP (tokL .le) s = false → containsP (tokL .lt) s = false →
      containsP (tokL .ge) s = false → containsP (tokL .gt) s = false →
      containsP (tokL .eq) s = false → containsP (tokL .ne) s = false →
      containsP (tokL .tilde) s = false → detect s = none) ∧
    (∀ op l r, detect s = some (op, l, r) →
      ∃ a b rest, s = a ++ tokL op ++ b ++ rest ∧
        containsP (tokL op) a = false ∧ containsP (tokL op) b = false ∧
        (rest = [] ∨ ∃ r2, rest = tokL op ++ r2) ∧
        l = trimL a ∧ r = trimL b) := by
  refine ⟨?_, ?_, ?_, ?_, ?_, ?_, ?_, ?_, detect_branch_decomp s⟩
  · intro h1
    obtain ⟨⟨a, b⟩, hq⟩ := containsP_splitP _ s (by simp [tokL]) h1
    rw [detect, if_pos h1, hq]
    exact ⟨_, _, rfl⟩
  · intro h1 h2
    obtain ⟨⟨a, b⟩, hq⟩ := containsP_splitP _ s (by simp [tokL]) h2
    rw [detect, if_neg (by simp [h1]), if_pos h2, hq]
    exact ⟨_, _, rfl⟩
  · intro h1 h2 h3
    obtain ⟨⟨a, b⟩, hq⟩ := containsP_splitP _ s (by simp [tokL]) h3
    rw [detect, if_neg (by simp [h1]), if_neg (by simp [h2]), if_pos h3, hq]
    exact ⟨_, _, rfl⟩
  · intro h1 h2 h3 h4
    obtain ⟨⟨a, b⟩, hq⟩ := containsP_splitP _ s (by simp [tokL]) h4
    rw [detect, if_neg (by simp [h1]), if_neg (by simp [h2]),
      if_neg (by simp [h3]), if_pos h4, hq]
    exact ⟨_, _, rfl⟩
  · intro h1 h2 h3 h4 h5
    obtain ⟨⟨a, b⟩, hq⟩ := containsP_splitP _ s (by simp [tokL]) h5
    rw [detect, if_neg (by simp [h1]), if_neg (by simp [h2]),
      if_neg (by simp [h3]), if_neg (by simp [h4]), if_pos h5, hq]
    exact ⟨_, _, rfl⟩
  · intro h1 h2 h3 h4 h5 h6
    obtain ⟨⟨a, b⟩, hq⟩ := containsP_splitP _ s (by simp [tokL]) h6
    rw [detect, if_neg (by simp [h1]), if_neg (by simp [h2]),
      if_neg (by simp [h3]), if_neg (by simp [h4]), if_neg (by simp [h5]),
      if_pos h6, hq]
    exact ⟨_, _, rfl⟩
  · intro h1 h2 h3 h4 h5 h6 h7
    obtain ⟨⟨a, b⟩, hq⟩ := containsP_splitP _ s (by simp [tokL]) h7
    rw [detect, if_neg (by simp [h1]), if_neg (by simp [h2]),
      if_neg (by simp [h3]), if_neg (by simp [h4]), if_neg (by simp [h5]),
      if_neg (by simp [h6]), if_pos h7, hq]
    exact ⟨_, _, rfl⟩
  · intro h1 h2 h3 h4 h5 h6 h7
    rw [detect, if_neg (by simp [h1]), if_neg (by simp [h2]),
      if_neg (by simp [h3]), if_neg (by simp [h4]), if_neg (by simp [h5]),
      if_neg (by simp [h6]), if_neg (by simp [h7])]

/-- C1, witness (the tolerance-marker case on `"a~b"`). -/
theorem c1_operator_order_and_split_witness :
    ∃ l r, detect ['a', '~', 'b'] = some (Op.tilde, l, r) :=
  (c1_operator_order_and_split ['a', '~', 'b']).2.2.2.2.2.2.1 (by decide)
    (by decide) (by decide) (by decide) (by decide) (by decide) (by decide)

/-! ## C4: which malformed inputs yield a ParseError -/

/-- C4, counterexample.  The claim says a `ParseError` results exactly
when no operator occurs or either side fails to parse.  On `"a<b"` with a
number parser that rejects `"b"`, the right side fails to parse, yet the
code does not produce its parse error: it panics on the `unwrap` inside
`split_expr`. -/
theorem c4_counterexample :
    ¬ (fromStrB epStub npStub ['a', '<', 'b'] = ParseOutcome.parseError ↔
        (hasOpToken ['a', '<', 'b'] = false ∨
          ∃ op l r, detect ['a', '<', 'b'] = some (op, l, r) ∧
            (epStub l = none ∨ npStub r = none))) := by
  intro hiff
  have hright : hasOpToken ['a', '<', 'b'] = false ∨
      ∃ op l r, detect ['a', '<', 'b'] = some (op, l, r) ∧
        (epStub l = none ∨ npStub r = none) :=
    Or.inr ⟨Op.lt, ['a'], ['b'], rfl, Or.inr rfl⟩
  have hpe := hiff.mpr hright
  rw [show fromStrB epStub npStub ['a', '<', 'b'] = ParseOutcome.fatal
    from rfl] at hpe
  exact ParseOutcome.noConfusion hpe

/-- C4, amended.  Parsing a constraint text returns a `ParseError`
exactly when no recognized operator (`<`, `<=`, `>`, `>=`, `==`, `!=`, `~`)
occurs in the text; when an operator is found but either side fails to
parse, construction panics (aborts) instead of returning a `ParseError`;
when both sides parse, the corresponding bound is built.  A failing parse
is a pure function of the constraint text and leaves previously built
constraints untouched. -/
theorem c4_parse_error_exactly_no_operator (ep : List Char → Option RExpr)
    (np : List Char → Option ℚ) (s : List Char) :
    (fromStrB ep np s = ParseOutcome.parseError ↔ hasOpToken s = false) ∧
    (∀ op l r, detect s = some (op, l, r) → (ep l = none ∨ np r = none) →
      fromStrB ep np s = ParseOutcome.fatal) ∧
    (∀ op l r, detect s = some (op, l, r) → ∀ e t, ep l = some e →
      np r = some t → fromStrB ep np s = ParseOutcome.ok (mkBounds op e t)) := by
  refine ⟨?_, ?_, ?_⟩
  · cases hdet : detect s with
    | none =>
      rw [fromStrB, hdet]
      exact iff_of_true rfl ((detect_eq_none_iff s).mp hdet)
    | some olr =>
      obtain ⟨op, l, r⟩ := olr
      simp only [fromStrB, hdet]
      refine iff_of_false ?_ ?_
      · cases hep : ep l <;> cases hnp : np r <;> simp
      · intro hf
        have hnone := (detect_eq_none_iff s).mpr hf
        rw [hdet] at hnone
        exact Option.noConfusion hnone
  · intro op l r hdet hf
    simp only [fromStrB, hdet]
    rcases hf with h | h
    · rw [h]
    · rw [h]
      cases ep l <;> rfl
  · intro op l r hdet e t hep hnp
    simp only [fromStrB, hdet]
    rw [hep, hnp]

/-- C4, witness (a found operator with a failing right side panics). -/
theorem c4_parse_error_exactly_no_operator_witness :
    fromStrB epStub npStub ['a', '<', 'b'] = ParseOutcome.fatal :=
  (c4_parse_error_exactly_no_operator epStub npStub ['a', '<', 'b']).2.1
    Op.lt ['a'] ['b'] rfl (Or.inr rfl)

end RCalcV
